import Mathlib

/-!
Shallow embedding of `csharp/lib/version.py` (the version-synchronization
script of the repository).  The Mercurial backend is modelled as an oracle
(`Repo`): the stdout of `hg id -n`, the content of `java/pom.xml` at each
first-parent ancestry depth of revision `.` (depth 0 is `.`, depth n is
`p1(...p1(.)...)`), the committed content of the AssemblyInfo file at `.`,
and the current on-disk (working-copy) content of the AssemblyInfo file.
An oracle answer of `none` models a non-zero exit status of the invoked
`hg` process.  Strings are processed as `List Char`; the two regular
expressions of the script and `re.subn` are implemented directly with the
semantics Python's `re` gives them on these concrete patterns.
-/

/-- Decimal digit character, used by `natToChars` (embedding of Python `str`
on a non-negative int). -/
def digitChar : Nat → Char
  | 0 => '0'
  | 1 => '1'
  | 2 => '2'
  | 3 => '3'
  | 4 => '4'
  | 5 => '5'
  | 6 => '6'
  | 7 => '7'
  | 8 => '8'
  | 9 => '9'
  | _ => '?'

/-- Fuelled decimal printer; fuel `n+1` always suffices for `n`. -/
def natToCharsAux : Nat → Nat → List Char
  | 0, _ => []
  | Nat.succ f, n =>
    if n < 10 then [digitChar n]
    else natToCharsAux f (n / 10) ++ [digitChar (n % 10)]

/-- Embedding of Python `str(p)` for the non-negative integers of the script. -/
def natToChars (n : Nat) : List Char :=
  natToCharsAux (n + 1) n

/-- Embedding of `'.'.join(...)` on the already-stringified components. -/
def joinDots : List (List Char) → List Char
  | [] => []
  | [s] => s
  | s :: s2 :: rest => s ++ '.' :: joinDots (s2 :: rest)

/-- `dropPat p l` strips the literal pattern `p` from the front of `l`,
returning the remainder, or `none` when `p` is not a prefix of `l`. -/
def dropPat : List Char → List Char → Option (List Char)
  | [], l => some l
  | _ :: _, [] => none
  | p :: ps, c :: cs => if c = p then dropPat ps cs else none

/-- The literal `AssemblyVersion("` (first alternative of the `re.subn`
pattern in `updatecsharpver`, and the head of the `getcsharpprevbuild`
pattern). -/
def pat1 : List Char :=
  ['A', 's', 's', 'e', 'm', 'b', 'l', 'y', 'V', 'e', 'r', 's', 'i', 'o', 'n', '(', '"']

/-- The literal `AssemblyFileVersion("` (second alternative of the `re.subn`
pattern in `updatecsharpver`). -/
def pat2 : List Char :=
  ['A', 's', 's', 'e', 'm', 'b', 'l', 'y', 'F', 'i', 'l', 'e', 'V', 'e', 'r', 's', 'i', 'o', 'n', '(', '"']

/-- One attempt of the alternation `(?:AssemblyVersion|AssemblyFileVersion)\("`
at the current position: Python's `re` tries the alternatives left to right. -/
def matchAttr (l : List Char) : Option (List Char × List Char) :=
  match dropPat pat1 l with
  | some rest => some (pat1, rest)
  | none =>
    match dropPat pat2 l with
    | some rest => some (pat2, rest)
    | none => none

/-- Embedding of `re.subn(r'((?:AssemblyVersion|AssemblyFileVersion)\(")([^"]+)',
r'\g<1>' + ver, data)`: scan left to right; at a match emit group 1 followed by
the replacement `ver` and continue after the greedy `[^"]+` run; otherwise copy
one character and advance.  The `fuel` argument only bounds the recursion and is
always called with `fuel ≥ length` (each step consumes at least one character).
The replacement `ver` produced by the script is digits and dots, so inserting it
literally coincides with `re`'s template expansion of `r'\g<1>' + ver`. -/
def subnAux (ver : List Char) : Nat → List Char → List Char × Nat
  | _, [] => ([], 0)
  | 0, l => (l, 0)
  | Nat.succ fuel, c :: rest =>
    match matchAttr (c :: rest) with
    | some (g1, after) =>
      match after.takeWhile (fun x => x != '"') with
      | [] =>
        let p := subnAux ver fuel rest
        (c :: p.1, p.2)
      | d :: ds =>
        let p := subnAux ver fuel (after.drop (d :: ds).length)
        (g1 ++ ver ++ p.1, p.2 + 1)
    | none =>
      let p := subnAux ver fuel rest
      (c :: p.1, p.2)

/-- `re.subn` of the script on whole strings: returns (rewritten, count). -/
def subn (data ver : String) : String × Nat :=
  let p := subnAux ver.data data.data.length data.data
  (String.mk p.1, p.2)

/-- Embedding of Python `.strip()` (drop leading and trailing whitespace). -/
def pyStrip (l : List Char) : List Char :=
  ((l.dropWhile Char.isWhitespace).reverse.dropWhile Char.isWhitespace).reverse

/-- Embedding of `.endswith('+')`. -/
def endsWithPlus (l : List Char) : Bool :=
  match l.getLast? with
  | some c => c = '+'
  | none => false

/-- `haschanges` from the script: `hg id -n`'s stdout, stripped, ends in `+`.
Note the source never inspects the exit status of the `hg id` process: the
stdout alone decides the answer. -/
def haschanges (stdout : String) : Bool :=
  endsWithPlus (pyStrip stdout.data)

/-- Maximal digit run at the front (the greedy `\d+`). -/
def digitRun (l : List Char) : List Char :=
  l.takeWhile Char.isDigit

/-- Numeric value of a digit run. -/
def chunkNum (l : List Char) : Nat :=
  l.foldl (fun n c => n * 10 + (c.toNat - 48)) 0

/-- Embedding of Python `int(s)` on the dot-split parts the script produces
(each part begins and ends with a digit, so `int` succeeds exactly when the
part is all digits). -/
def parseIntPart (l : List Char) : Option Nat :=
  if l ≠ [] ∧ l.all Char.isDigit then some (chunkNum l) else none

/-- Embedding of `.split('.')`. -/
def splitDot : List Char → List (List Char)
  | [] => [[]]
  | c :: rest =>
    if c = '.' then [] :: splitDot rest
    else
      match splitDot rest with
      | [] => [[c]]
      | p :: ps => (c :: p) :: ps

/-- The literal `<version>`. -/
def openTag : List Char := ['<', 'v', 'e', 'r', 's', 'i', 'o', 'n', '>']

/-- The literal `</version>`. -/
def closeTag : List Char := ['<', '/', 'v', 'e', 'r', 's', 'i', 'o', 'n', '>']

/-- The literal `-SNAPSHOT</version>` (the optional group followed by the
closing tag). -/
def snapTag : List Char :=
  ['-', 'S', 'N', 'A', 'P', 'S', 'H', 'O', 'T'] ++ closeTag

/-- After group 1 of the pom pattern, try the greedy optional `(-SNAPSHOT)?`
first, then the literal `</version>`; report the snapshot flag. -/
def verTail (g1 : List Char) (l : List Char) : Option (List Char × Bool) :=
  match dropPat snapTag l with
  | some _ => some (g1, true)
  | none =>
    match dropPat closeTag l with
    | some _ => some (g1, false)
    | none => none

/-- Backtracking over the length of a greedy `\d+`: try `k`, then `k-1`, …, 1. -/
def tryLens {α : Type} (f : Nat → Option α) : Nat → Option α
  | 0 => none
  | Nat.succ k =>
    match f (Nat.succ k) with
    | some r => some r
    | none => tryLens f k

/-- Body of the pom pattern after `<version>`: `(\d+.\d+)(-SNAPSHOT)?</version>`
with Python semantics — the `.` is unescaped in the source and matches any
character except a newline; both `\d+` are greedy with backtracking. -/
def matchVerBody (l : List Char) : Option (List Char × Bool) :=
  tryLens (fun k1 =>
    let d1 := l.take k1
    match l.drop k1 with
    | [] => none
    | c :: t1 =>
      if c = '\n' then none
      else
        tryLens (fun k2 =>
          verTail (d1 ++ c :: t1.take k2) (t1.drop k2)) (digitRun t1).length)
    (digitRun l).length

/-- `re.search` of the pom pattern: leftmost position where the whole pattern
matches; yields (group 1, snapshot flag). -/
def findJavaVer : List Char → Option (List Char × Bool)
  | [] => none
  | c :: rest =>
    match (match dropPat openTag (c :: rest) with
           | some after => matchVerBody after
           | none => none) with
    | some r => some r
    | none => findJavaVer rest

/-- `\d+\.\d+\.\d+\.\d+` (escaped dots) at the current position; because each
`\d+` is a maximal digit run that must be followed by a literal `.`, the match
is deterministic.  Returns the fourth component (`int(group(1).split('.')[3])`). -/
def matchDotted (l : List Char) : Option Nat :=
  match digitRun l with
  | [] => none
  | d1 =>
    match l.drop d1.length with
    | '.' :: t1 =>
      match digitRun t1 with
      | [] => none
      | d2 =>
        match t1.drop d2.length with
        | '.' :: t2 =>
          match digitRun t2 with
          | [] => none
          | d3 =>
            match t2.drop d3.length with
            | '.' :: t3 =>
              match digitRun t3 with
              | [] => none
              | d4 => some (chunkNum d4)
            | _ => none
        | _ => none
    | _ => none

/-- `re.search(r'AssemblyVersion\("(\d+\.\d+\.\d+\.\d+)', ...)` of
`getcsharpprevbuild`: leftmost position where the full pattern matches,
yielding the build (fourth) component. -/
def findBuild : List Char → Option Nat
  | [] => none
  | c :: rest =>
    match (match dropPat pat1 (c :: rest) with
           | some after => matchDotted after
           | none => none) with
    | some b => some b
    | none => findBuild rest

/-- The Mercurial oracle: answers of the `hg` processes the script spawns.
`none` models a non-zero exit status of the corresponding `hg cat`.
`hgIdRet` is the exit status of the `hg id -n` call; the source's
`haschanges` never reads it (it ignores `p.returncode`), which the theorems
below make explicit. -/
structure Repo where
  hgIdStdout : String
  hgIdRet : Nat
  pomAt : Nat → Option String
  asmCommitted : Option String
  asmWorking : String

/-- Replace only the working-copy AssemblyInfo content. -/
def setWorking (repo : Repo) (w : String) : Repo :=
  ⟨repo.hgIdStdout, repo.hgIdRet, repo.pomAt, repo.asmCommitted, w⟩

/-- Replace only the exit status of the `hg id -n` call. -/
def setHgRet (repo : Repo) (n : Nat) : Repo :=
  ⟨repo.hgIdStdout, n, repo.pomAt, repo.asmCommitted, repo.asmWorking⟩

/-- `readjavaver`: `hg cat` of `java/pom.xml` at the given ancestry depth
(`hgcat` raises on a non-zero exit), then the pom regex search, then
`tuple(int(p) for p in group(1).split('.'))[:2]` and the snapshot flag. -/
def readjavaver (pom : Option String) : Except String (List Nat × Bool) :=
  match pom with
  | none => Except.error "hg cat failed"
  | some s =>
    match findJavaVer s.data with
    | none => Except.error "cannot extract version number from pom file"
    | some (g1, snap) =>
      match (splitDot g1).mapM parseIntPart with
      | none => Except.error "ValueError"
      | some parts => Except.ok (parts.take 2, snap)

/-- The `while True` loop of `getjavaver`, starting at ancestry depth `depth`
(`rev = '.'` is depth 0, each `rev = 'p1(%s)' % rev` step adds 1).  The source
loop has no bound; `fuel` only truncates the embedding, and `none` means the
loop is still running after `fuel` iterations. -/
def getjavaverFuel (repo : Repo) : Nat → Nat → Option (Except String (List Nat))
  | 0, _ => none
  | Nat.succ fuel, depth =>
    match readjavaver (repo.pomAt depth) with
    | Except.error e => some (Except.error e)
    | Except.ok (v, snap) =>
      if snap then getjavaverFuel repo fuel (depth + 1) else some (Except.ok v)

/-- `getjavaver`: the loop started at revision `.`. -/
def getjavaver (repo : Repo) (fuel : Nat) : Option (Except String (List Nat)) :=
  getjavaverFuel repo fuel 0

/-- `getcsharpprevbuild`: `hg cat` of the AssemblyInfo file at revision `.`
(the committed content, not the working copy), then the
`AssemblyVersion\("(\d+\.\d+\.\d+\.\d+)` search. -/
def getcsharpprevbuild (repo : Repo) : Except String Nat :=
  match repo.asmCommitted with
  | none => Except.error "hg cat failed"
  | some s =>
    match findBuild s.data with
    | none => Except.error "cannot extract version from AssemblyInfo.cs"
    | some b => Except.ok b

/-- `(ver + (0, 0, 0, 0))[:4]`. -/
def padVer (ver : List Nat) : List Nat :=
  (ver ++ [0, 0, 0, 0]).take 4

/-- `'.'.join(str(p) for p in ver)` applied after the padding. -/
def fmtVer (ver : List Nat) : String :=
  String.mk (joinDots ((padVer ver).map natToChars))

/-- Outcome of `updatecsharpver`: final file content, whether the file was
written, and the `print 'Updating to', ver` report (emitted only before a
write). -/
def updatecsharpver (data : String) (ver : List Nat) :
    Except String (String × Bool × Option String) :=
  let vs := fmtVer ver
  let p := subn data vs
  if p.2 = 0 then Except.error "cannot extract version from AssemblyInfo.cs"
  else if p.1 = data then Except.ok (data, false, none)
  else Except.ok (p.1, true, some vs)

/-- Observable outcome of one `__main__` run: final bytes of the AssemblyInfo
file on disk, whether a write happened, what was printed, and the uncaught
exception message if the run aborted. -/
structure RunResult where
  content : String
  wrote : Bool
  report : Option String
  err : Option String
deriving DecidableEq, Repr

/-- The `__main__` block: guard on `haschanges`, then `getjavaver`,
`getcsharpprevbuild`, `ver = ver[:2] + (0, build + 1)`, `updatecsharpver`.
Any raised exception aborts the run with the file untouched (the single
write is the last action).  `none` means the unbounded `getjavaver` loop is
still running after `fuel` iterations. -/
def runMain (repo : Repo) (fuel : Nat) : Option RunResult :=
  if haschanges repo.hgIdStdout then
    match getjavaver repo fuel with
    | none => none
    | some (Except.error e) => some ⟨repo.asmWorking, false, none, some e⟩
    | some (Except.ok ver) =>
      match getcsharpprevbuild repo with
      | Except.error e => some ⟨repo.asmWorking, false, none, some e⟩
      | Except.ok build =>
        match updatecsharpver repo.asmWorking (ver.take 2 ++ [0, build + 1]) with
        | Except.error e => some ⟨repo.asmWorking, false, none, some e⟩
        | Except.ok (content, wrote, report) => some ⟨content, wrote, report, none⟩
  else some ⟨repo.asmWorking, false, none, none⟩

/-! ### Lemmas about the pattern machinery of `re.subn` -/

theorem dropPat_self (p t : List Char) : dropPat p (p ++ t) = some t := by
  induction p with
  | nil => rfl
  | cons c ps ih => simp [dropPat, ih]

theorem dropPat_length : ∀ p l r : List Char,
    dropPat p l = some r → p.length + r.length = l.length := by
  intro p
  induction p with
  | nil =>
    intro l r h
    simp [dropPat] at h
    subst h
    simp
  | cons c ps ih =>
    intro l r h
    cases l with
    | nil => simp [dropPat] at h
    | cons d ds =>
      simp only [dropPat] at h
      split at h
      · have := ih ds r h
        simp only [List.length_cons]
        omega
      · exact absurd h (by simp)

theorem matchAttr_not_A (c : Char) (l : List Char) (hc : c ≠ 'A') :
    matchAttr (c :: l) = none := by
  have h1 : dropPat pat1 (c :: l) = none := by simp [pat1, dropPat, hc]
  have h2 : dropPat pat2 (c :: l) = none := by simp [pat2, dropPat, hc]
  simp [matchAttr, h1, h2]

theorem matchAttr_pat1 (t : List Char) : matchAttr (pat1 ++ t) = some (pat1, t) := by
  simp [matchAttr, dropPat_self]

theorem matchAttr_pat2 (t : List Char) : matchAttr (pat2 ++ t) = some (pat2, t) := by
  have h1 : dropPat pat1 (pat2 ++ t) = none := rfl
  simp [matchAttr, h1, dropPat_self]

theorem matchAttr_bound : ∀ l g1 after : List Char,
    matchAttr l = some (g1, after) → 1 ≤ g1.length ∧ g1.length + after.length = l.length := by
  intro l g1 after h
  unfold matchAttr at h
  cases h1 : dropPat pat1 l with
  | some rest =>
    rw [h1] at h
    simp at h
    obtain ⟨hg, ha⟩ := h
    subst hg; subst ha
    refine ⟨by simp [pat1], dropPat_length _ _ _ h1⟩
  | none =>
    rw [h1] at h
    cases h2 : dropPat pat2 l with
    | some rest =>
      rw [h2] at h
      simp at h
      obtain ⟨hg, ha⟩ := h
      subst hg; subst ha
      refine ⟨by simp [pat2], dropPat_length _ _ _ h2⟩
    | none =>
      rw [h2] at h
      simp at h

theorem takeWhile_quote : ∀ v rest : List Char, (∀ c ∈ v, c ≠ '"') →
    (v ++ '"' :: rest).takeWhile (fun x => x != '"') = v := by
  intro v
  induction v with
  | nil =>
    intro rest _
    simp [List.takeWhile_cons]
  | cons c v' ih =>
    intro rest h
    have hc : (c != '"') = true := by
      simp only [bne_iff_ne, ne_eq]
      exact h c (by simp)
    simp only [List.cons_append, List.takeWhile_cons, hc]
    simp [ih rest (fun d hd => h d (by simp [hd]))]

theorem subnAux_nil (ver : List Char) (f : Nat) : subnAux ver f [] = ([], 0) := by
  cases f <;> rfl

theorem subnAux_fuel : ∀ (f1 : Nat) (l ver : List Char) (f2 : Nat),
    l.length ≤ f1 → l.length ≤ f2 → subnAux ver f1 l = subnAux ver f2 l := by
  intro f1
  induction f1 with
  | zero =>
    intro l ver f2 h1 _
    have hl : l = [] := List.eq_nil_of_length_eq_zero (Nat.le_zero.mp h1)
    subst hl
    rw [subnAux_nil, subnAux_nil]
  | succ f ih =>
    intro l ver f2 h1 h2
    cases l with
    | nil => rw [subnAux_nil, subnAux_nil]
    | cons c rest =>
      cases f2 with
      | zero => simp at h2
      | succ f2' =>
        simp only [List.length_cons] at h1 h2
        cases hm : matchAttr (c :: rest) with
        | none =>
          simp only [subnAux, hm]
          rw [ih rest ver f2' (by omega) (by omega)]
        | some ga =>
          obtain ⟨g1, after⟩ := ga
          have hlen := matchAttr_bound _ _ _ hm
          simp only [List.length_cons] at hlen
          cases htw : after.takeWhile (fun x => x != '"') with
          | nil =>
            simp only [subnAux, hm, htw]
            rw [ih rest ver f2' (by omega) (by omega)]
          | cons d ds =>
            simp only [subnAux, hm, htw]
            have hd : (after.drop (d :: ds).length).length ≤ after.length := by
              simp [List.length_drop]
            rw [ih (after.drop (d :: ds).length) ver f2' (by omega) (by omega)]

/-- One scan step when no match begins at the current character. -/
theorem subnAux_step_none (ver : List Char) (f : Nat) (c : Char) (rest : List Char)
    (h : matchAttr (c :: rest) = none) :
    subnAux ver (f + 1) (c :: rest) =
      (c :: (subnAux ver f rest).1, (subnAux ver f rest).2) := by
  simp only [subnAux, h]

/-- One scan step at a match with a nonempty greedy `[^"]+` run. -/
theorem subnAux_step_some (ver : List Char) (f : Nat) (c : Char)
    (rest g1 after : List Char) (d : Char) (ds : List Char)
    (h : matchAttr (c :: rest) = some (g1, after))
    (ht : after.takeWhile (fun x => x != '"') = d :: ds) :
    subnAux ver (f + 1) (c :: rest) =
      (g1 ++ ver ++ (subnAux ver f (after.drop (d :: ds).length)).1,
       (subnAux ver f (after.drop (d :: ds).length)).2 + 1) := by
  simp only [subnAux, h, ht]

/-- Scanning a segment that contains no `'A'` copies it verbatim: no match of
either alternative can begin there. -/
theorem subnAux_clean : ∀ (a b ver : List Char) (f : Nat),
    (∀ c ∈ a, c ≠ 'A') → a.length + b.length ≤ f →
    subnAux ver f (a ++ b) =
      (a ++ (subnAux ver b.length b).1, (subnAux ver b.length b).2) := by
  intro a
  induction a with
  | nil =>
    intro b ver f _ hf
    simp only [List.nil_append]
    rw [subnAux_fuel f b ver b.length (by simpa using hf) (le_refl _)]
  | cons c a' ih =>
    intro b ver f h hf
    cases f with
    | zero => simp at hf
    | succ f' =>
      have hc : c ≠ 'A' := h c (by simp)
      have hm := matchAttr_not_A c (a' ++ b) hc
      rw [List.cons_append, subnAux_step_none ver f' c (a' ++ b) hm]
      rw [ih b ver f' (fun d hd => h d (by simp [hd]))
        (by simp only [List.length_cons] at hf; omega)]
      simp

/-- Scanning from an occurrence of one of the two attribute patterns followed
by a nonempty quote-free literal and a closing quote: the pattern is kept, the
literal is replaced by `ver`, and scanning resumes at the closing quote. -/
theorem subnAux_hit : ∀ (pat v rest ver : List Char) (f : Nat),
    (∀ t, matchAttr (pat ++ t) = some (pat, t)) → pat ≠ [] → v ≠ [] →
    (∀ c ∈ v, c ≠ '"') →
    pat.length + (v.length + (rest.length + 1)) ≤ f →
    subnAux ver f (pat ++ (v ++ '"' :: rest)) =
      (pat ++ ver ++ (subnAux ver (rest.length + 1) ('"' :: rest)).1,
       (subnAux ver (rest.length + 1) ('"' :: rest)).2 + 1) := by
  intro pat v rest ver f hm hpat hv hq hf
  cases pat with
  | nil => exact absurd rfl hpat
  | cons pc ps =>
    cases f with
    | zero => simp at hf
    | succ f' =>
      have hm' := hm (v ++ '"' :: rest)
      rw [List.cons_append] at hm'
      have htw : (v ++ '"' :: rest).takeWhile (fun x => x != '"') = v :=
        takeWhile_quote v rest hq
      cases v with
      | nil => exact absurd rfl hv
      | cons d ds =>
        rw [List.cons_append,
          subnAux_step_some ver f' pc (ps ++ ((d :: ds) ++ '"' :: rest))
            (pc :: ps) ((d :: ds) ++ '"' :: rest) d ds hm' htw]
        rw [List.drop_left]
        rw [subnAux_fuel f' ('"' :: rest) ver (rest.length + 1)
          (by simp only [List.length_cons, List.length_append] at hf ⊢; omega)
          (by simp)]

/-- Prepending the closing quote keeps a segment `'A'`-free. -/
theorem quote_cons_not_A (l : List Char) (h : ∀ c ∈ l, c ≠ 'A') :
    ∀ c ∈ ('"' :: l), c ≠ 'A' := by
  intro c hc
  rcases List.mem_cons.mp hc with h1 | h1
  · subst h1; decide
  · exact h c h1

/-- The rewrite on a file holding the two version-bearing declarations:
only the quoted literals change, count is 2, every other byte is kept. -/
theorem subnAux_shape (pre mid post v1 v2 ver : List Char)
    (hpre : ∀ c ∈ pre, c ≠ 'A') (hmid : ∀ c ∈ mid, c ≠ 'A')
    (hpost : ∀ c ∈ post, c ≠ 'A')
    (hv1 : v1 ≠ []) (hq1 : ∀ c ∈ v1, c ≠ '"')
    (hv2 : v2 ≠ []) (hq2 : ∀ c ∈ v2, c ≠ '"') :
    subnAux ver
        (pre ++ (pat1 ++ (v1 ++ '"' :: (mid ++ (pat2 ++ (v2 ++ '"' :: post)))))).length
        (pre ++ (pat1 ++ (v1 ++ '"' :: (mid ++ (pat2 ++ (v2 ++ '"' :: post)))))) =
      (pre ++ (pat1 ++ (ver ++ '"' :: (mid ++ (pat2 ++ (ver ++ '"' :: post))))), 2) := by
  rw [subnAux_clean pre (pat1 ++ (v1 ++ '"' :: (mid ++ (pat2 ++ (v2 ++ '"' :: post)))))
    ver _ hpre (by simp only [List.length_append]; omega)]
  rw [subnAux_hit pat1 v1 (mid ++ (pat2 ++ (v2 ++ '"' :: post))) ver _
    matchAttr_pat1 (by simp [pat1]) hv1 hq1
    (by simp only [List.length_append, List.length_cons]; omega)]
  have hshift : ('"' :: (mid ++ (pat2 ++ (v2 ++ '"' :: post)))) =
      ('"' :: mid) ++ (pat2 ++ (v2 ++ '"' :: post)) := by simp
  rw [hshift]
  rw [subnAux_clean ('"' :: mid) (pat2 ++ (v2 ++ '"' :: post)) ver _
    (quote_cons_not_A mid hmid)
    (by simp only [List.length_append, List.length_cons]; omega)]
  rw [subnAux_hit pat2 v2 post ver _ matchAttr_pat2 (by simp [pat2]) hv2 hq2
    (by simp only [List.length_append, List.length_cons]; omega)]
  have hpost2 : ('"' :: post) = ('"' :: post) ++ ([] : List Char) := by simp
  rw [hpost2]
  rw [subnAux_clean ('"' :: post) [] ver _ (quote_cons_not_A post hpost)
    (by simp only [List.length_append, List.length_cons, List.length_nil]; omega)]
  rw [subnAux_nil]
  simp

/-- Abbreviation for the content of a metadata file holding the two
version-bearing declarations with literals `a` and `b`. -/
def shapeWith (pre mid post a b : List Char) : List Char :=
  pre ++ (pat1 ++ (a ++ '"' :: (mid ++ (pat2 ++ (b ++ '"' :: post)))))

/-- String-level form of `subnAux_shape` for `subn` as called by the script. -/
theorem subn_shape (data verS : String) (pre mid post v1 v2 : List Char)
    (hdata : data.data = shapeWith pre mid post v1 v2)
    (hpre : ∀ c ∈ pre, c ≠ 'A') (hmid : ∀ c ∈ mid, c ≠ 'A')
    (hpost : ∀ c ∈ post, c ≠ 'A')
    (hv1 : v1 ≠ []) (hq1 : ∀ c ∈ v1, c ≠ '"')
    (hv2 : v2 ≠ []) (hq2 : ∀ c ∈ v2, c ≠ '"') :
    subn data verS =
      (String.mk (shapeWith pre mid post verS.data verS.data), 2) := by
  unfold subn shapeWith
  rw [hdata]
  unfold shapeWith
  rw [subnAux_shape pre mid post v1 v2 verS.data hpre hmid hpost hv1 hq1 hv2 hq2]

theorem digitChar_ne_quote : ∀ k : Nat, digitChar k ≠ '"' := by
  intro k
  rcases k with _ | _ | _ | _ | _ | _ | _ | _ | _ | _ | k <;>
    first
    | decide
    | · show ('?' : Char) ≠ '"'
        decide

theorem natToCharsAux_ne_quote : ∀ (f n : Nat), ∀ c ∈ natToCharsAux f n, c ≠ '"' := by
  intro f
  induction f with
  | zero => intro n c hc; simp [natToCharsAux] at hc
  | succ f ih =>
    intro n c hc
    by_cases h : n < 10
    · simp [natToCharsAux, h] at hc
      subst hc
      exact digitChar_ne_quote n
    · simp [natToCharsAux, h] at hc
      rcases hc with hc | hc
      · exact ih _ c hc
      · subst hc; exact digitChar_ne_quote _
  
theorem natToCharsAux_ne_nil : ∀ (f n : Nat), natToCharsAux (f + 1) n ≠ [] := by
  intro f n
  by_cases h : n < 10
  · simp [natToCharsAux, h]
  · simp [natToCharsAux, h]

theorem natToChars_ne_nil (n : Nat) : natToChars n ≠ [] :=
  natToCharsAux_ne_nil n n

theorem joinDots_mem : ∀ (ps : List (List Char)) (c : Char),
    c ∈ joinDots ps → (∃ p ∈ ps, c ∈ p) ∨ c = '.' := by
  intro ps
  induction ps with
  | nil => intro c hc; simp [joinDots] at hc
  | cons s rest ih =>
    intro c hc
    cases rest with
    | nil =>
      simp only [joinDots] at hc
      exact Or.inl ⟨s, by simp, hc⟩
    | cons s2 rest2 =>
      simp only [joinDots, List.mem_append, List.mem_cons] at hc
      rcases hc with hc | hc | hc
      · exact Or.inl ⟨s, by simp, hc⟩
      · exact Or.inr hc
      · rcases ih c hc with ⟨p, hp, hcp⟩ | h
        · exact Or.inl ⟨p, by simp [hp], hcp⟩
        · exact Or.inr h

theorem fmtVer_ne_quote (l : List Nat) : ∀ c ∈ (fmtVer l).data, c ≠ '"' := by
  intro c hc
  have hc2 : c ∈ joinDots ((padVer l).map natToChars) := hc
  rcases joinDots_mem _ c hc2 with ⟨p, hp, hcp⟩ | h
  · obtain ⟨n, _, hn⟩ := List.mem_map.mp hp
    subst hn
    exact natToCharsAux_ne_quote _ _ c hcp
  · subst h; decide

theorem padVer_length (l : List Nat) : (padVer l).length = 4 := by
  simp [padVer, List.length_take, List.length_append]

theorem fmtVer_ne_nil (l : List Nat) : (fmtVer l).data ≠ [] := by
  have h4 := padVer_length l
  cases hp : padVer l with
  | nil => rw [hp] at h4; simp at h4
  | cons a rest =>
    cases rest with
    | nil => rw [hp] at h4; simp at h4
    | cons b rest2 =>
      show joinDots ((padVer l).map natToChars) ≠ []
      rw [hp]
      simp only [List.map_cons, joinDots]
      intro hcontra
      rcases List.append_eq_nil.mp hcontra with ⟨_, h2⟩
      simp at h2

/-- `updatecsharpver` on a file of the two-declaration shape: both literals
become the formatted version, nothing else changes, and the write is skipped
exactly when the rewritten bytes equal the existing bytes. -/
theorem updatecsharpver_shape (data : String) (ver : List Nat)
    (pre mid post v1 v2 : List Char)
    (hdata : data.data = shapeWith pre mid post v1 v2)
    (hpre : ∀ c ∈ pre, c ≠ 'A') (hmid : ∀ c ∈ mid, c ≠ 'A')
    (hpost : ∀ c ∈ post, c ≠ 'A')
    (hv1 : v1 ≠ []) (hq1 : ∀ c ∈ v1, c ≠ '"')
    (hv2 : v2 ≠ []) (hq2 : ∀ c ∈ v2, c ≠ '"') :
    updatecsharpver data ver =
      (if String.mk (shapeWith pre mid post (fmtVer ver).data (fmtVer ver).data) = data
       then Except.ok (data, false, none)
       else Except.ok
         (String.mk (shapeWith pre mid post (fmtVer ver).data (fmtVer ver).data),
          true, some (fmtVer ver))) := by
  have hs := subn_shape data (fmtVer ver) pre mid post v1 v2 hdata
    hpre hmid hpost hv1 hq1 hv2 hq2
  simp only [updatecsharpver, hs]
  norm_num

/-- A full dirty-copy run on a metadata file of the two-declaration shape:
the resolved upstream pair `(M, m)` and the committed build `B` produce the
version `M.m.0.(B+1)`, both literals are updated to it, all other bytes are
kept, and the write is skipped when the result already equals the file. -/
theorem runMain_shape (repo : Repo) (fuel M m B : Nat)
    (pre mid post v1 v2 : List Char)
    (hd : haschanges repo.hgIdStdout = true)
    (hver : getjavaver repo fuel = some (Except.ok [M, m]))
    (hb : getcsharpprevbuild repo = Except.ok B)
    (hdata : repo.asmWorking.data = shapeWith pre mid post v1 v2)
    (hpre : ∀ c ∈ pre, c ≠ 'A') (hmid : ∀ c ∈ mid, c ≠ 'A')
    (hpost : ∀ c ∈ post, c ≠ 'A')
    (hv1 : v1 ≠ []) (hq1 : ∀ c ∈ v1, c ≠ '"')
    (hv2 : v2 ≠ []) (hq2 : ∀ c ∈ v2, c ≠ '"') :
    runMain repo fuel =
      some
        (if String.mk (shapeWith pre mid post (fmtVer [M, m, 0, B + 1]).data
              (fmtVer [M, m, 0, B + 1]).data) = repo.asmWorking
         then ⟨repo.asmWorking, false, none, none⟩
         else ⟨String.mk (shapeWith pre mid post (fmtVer [M, m, 0, B + 1]).data
                 (fmtVer [M, m, 0, B + 1]).data),
               true, some (fmtVer [M, m, 0, B + 1]), none⟩) := by
  have htake : ([M, m] : List Nat).take 2 ++ [0, B + 1] = [M, m, 0, B + 1] := rfl
  have hu := updatecsharpver_shape repo.asmWorking [M, m, 0, B + 1] pre mid post v1 v2
    hdata hpre hmid hpost hv1 hq1 hv2 hq2
  by_cases hcase : String.mk (shapeWith pre mid post (fmtVer [M, m, 0, B + 1]).data
      (fmtVer [M, m, 0, B + 1]).data) = repo.asmWorking
  · simp only [runMain, hd, if_true, hver, hb, htake, hu, if_pos hcase]
  · simp only [runMain, hd, if_true, hver, hb, htake, hu, if_neg hcase]

/-- The loop of `getjavaver` started at `depth`: with snapshot answers for the
first `k` ancestors and a non-snapshot answer at ancestor `k`, any fuel
beyond `k` returns that answer. -/
theorem getjavaverFuel_walk (repo : Repo) (v : List Nat) :
    ∀ (k fuel depth : Nat),
    (∀ i, i < k → ∃ vi, readjavaver (repo.pomAt (depth + i)) = Except.ok (vi, true)) →
    readjavaver (repo.pomAt (depth + k)) = Except.ok (v, false) →
    k < fuel →
    getjavaverFuel repo fuel depth = some (Except.ok v) := by
  intro k
  induction k with
  | zero =>
    intro fuel depth _ hk hf
    cases fuel with
    | zero => omega
    | succ f =>
      rw [Nat.add_zero] at hk
      simp [getjavaverFuel, hk]
  | succ k ih =>
    intro fuel depth hsnap hk hf
    cases fuel with
    | zero => omega
    | succ f =>
      obtain ⟨v0, h0⟩ := hsnap 0 (by omega)
      rw [Nat.add_zero] at h0
      simp only [getjavaverFuel, h0, if_true]
      apply ih f (depth + 1)
      · intro i hi
        have h1 := hsnap (i + 1) (by omega)
        rwa [show depth + (i + 1) = depth + 1 + i by omega] at h1
      · rwa [show depth + (k + 1) = depth + 1 + k by omega] at hk
      · omega

/-- If every ancestor reports a snapshot, the loop of `getjavaver` never
returns, whatever iteration budget it is granted. -/
theorem getjavaverFuel_allsnap (repo : Repo)
    (h : ∀ n, ∃ v, readjavaver (repo.pomAt n) = Except.ok (v, true)) :
    ∀ fuel depth, getjavaverFuel repo fuel depth = none := by
  intro fuel
  induction fuel with
  | zero => intro depth; rfl
  | succ f ih =>
    intro depth
    obtain ⟨v, hv⟩ := h depth
    simp only [getjavaverFuel, hv, if_true]
    exact ih (depth + 1)

theorem getjavaverFuel_setWorking (repo : Repo) (w : String) :
    ∀ fuel depth, getjavaverFuel (setWorking repo w) fuel depth =
      getjavaverFuel repo fuel depth := by
  intro fuel
  induction fuel with
  | zero => intro depth; rfl
  | succ f ih =>
    intro depth
    have hp : (setWorking repo w).pomAt = repo.pomAt := rfl
    simp only [getjavaverFuel, hp]
    cases readjavaver (repo.pomAt depth) with
    | error e => rfl
    | ok p =>
      obtain ⟨v, snap⟩ := p
      cases snap
      · rfl
      · simp only [if_true]
        exact ih (depth + 1)

theorem getjavaver_setWorking (repo : Repo) (w : String) (fuel : Nat) :
    getjavaver (setWorking repo w) fuel = getjavaver repo fuel :=
  getjavaverFuel_setWorking repo w fuel 0

theorem getcsharpprevbuild_setWorking (repo : Repo) (w : String) :
    getcsharpprevbuild (setWorking repo w) = getcsharpprevbuild repo := rfl

/-- Case split of `updatecsharpver` when the pattern is present (`n ≠ 0`):
either the rewritten bytes equal the data and nothing is written, or the
rewritten bytes are written and reported. -/
theorem updatecsharpver_cases (data : String) (ver : List Nat)
    (hn : (subn data (fmtVer ver)).2 ≠ 0) :
    (updatecsharpver data ver = Except.ok (data, false, none) ∧
      (subn data (fmtVer ver)).1 = data) ∨
    (updatecsharpver data ver =
        Except.ok ((subn data (fmtVer ver)).1, true, some (fmtVer ver)) ∧
      (subn data (fmtVer ver)).1 ≠ data) := by
  by_cases he : (subn data (fmtVer ver)).1 = data
  · left
    refine ⟨?_, he⟩
    simp only [updatecsharpver]
    rw [if_neg hn, if_pos he]
  · right
    refine ⟨?_, he⟩
    simp only [updatecsharpver]
    rw [if_neg hn, if_neg he]

/-- Unfolding of a dirty-copy run once the upstream pair and committed build
are fixed: the outcome is that of `updatecsharpver` on the working copy. -/
theorem runMain_eq_update (repo : Repo) (fuel M m B : Nat)
    (hd : haschanges repo.hgIdStdout = true)
    (hver : getjavaver repo fuel = some (Except.ok [M, m]))
    (hb : getcsharpprevbuild repo = Except.ok B) :
    runMain repo fuel =
      some (match updatecsharpver repo.asmWorking [M, m, 0, B + 1] with
            | Except.error e => ⟨repo.asmWorking, false, none, some e⟩
            | Except.ok (c, w, rep) => ⟨c, w, rep, none⟩) := by
  have htake : ([M, m] : List Nat).take 2 ++ [0, B + 1] = [M, m, 0, B + 1] := rfl
  simp only [runMain, hd, if_true, hver, hb, htake]
  cases updatecsharpver repo.asmWorking [M, m, 0, B + 1] with
  | error e => rfl
  | ok t =>
    obtain ⟨c, w, rep⟩ := t
    rfl

/-! ### Concrete repository states used as witnesses -/

/-- A released upstream descriptor. -/
def pomRelStr : String := "<version>4.7</version>"

/-- A snapshot upstream descriptor. -/
def pomSnapStr : String := "<version>2.3-SNAPSHOT</version>"

/-- The released descriptor two ancestors back in the C3 scenario. -/
def pomRel22Str : String := "<version>2.2</version>"

/-- Committed AssemblyInfo content with build 118. -/
def asmOldStr : String :=
  "[assembly: AssemblyVersion(\"4.6.0.118\")]\n[assembly: AssemblyFileVersion(\"4.6.0.118\")]"

/-- The expected content after synchronizing to 4.7.0.119. -/
def asmNewStr : String :=
  "[assembly: AssemblyVersion(\"4.7.0.119\")]\n[assembly: AssemblyFileVersion(\"4.7.0.119\")]"

/-- The end-to-end scenario: dirty copy, released 4.7 descriptor, committed
build 118. -/
def e2eRepo : Repo := ⟨"42+\n", 0, fun _ => some pomRelStr, some asmOldStr, asmOldStr⟩

/-- A clean working copy (`hg id -n` output carries no `+`). -/
def cleanRepo : Repo := ⟨"42\n", 0, fun _ => some pomRelStr, some asmOldStr, asmOldStr⟩

/-- Every ancestor reports a snapshot. -/
def allSnapRepo : Repo := ⟨"42+\n", 0, fun _ => some pomSnapStr, some asmOldStr, asmOldStr⟩

/-- The `hg id -n` process fails (exit status 255, empty stdout); every other
query would fail too. -/
def failIdRepo : Repo := ⟨"", 255, fun _ => none, none, asmOldStr⟩

/-- Snapshot at `.` and its parent, release 2.2 at the grandparent, an
unrelated release further back. -/
def snapRepoA : Repo :=
  ⟨"42+\n", 0,
   fun n => if n < 2 then some pomSnapStr
            else if n = 2 then some pomRel22Str
            else some "<version>9.9</version>",
   some asmOldStr, asmOldStr⟩

/-- Same history as `snapRepoA` up to the grandparent, but every further
ancestor query would fail: the walk must never reach it. -/
def snapRepoB : Repo :=
  ⟨"42+\n", 0,
   fun n => if n < 2 then some pomSnapStr
            else if n = 2 then some pomRel22Str
            else none,
   some asmOldStr, asmOldStr⟩

/-- Dirty copy whose descriptor has no version element. -/
def badPomRepo : Repo :=
  ⟨"42+\n", 0, fun _ => some "no version element", some asmOldStr, asmOldStr⟩

/-- Dirty copy whose committed metadata lacks the version pattern. -/
def badAsmRepo : Repo :=
  ⟨"42+\n", 0, fun _ => some pomRelStr, some "nothing here", asmOldStr⟩

/-- Dirty copy where every `hg cat` fails. -/
def hgFailRepo : Repo := ⟨"42+\n", 0, fun _ => none, none, asmOldStr⟩

/-! ### The claims -/

/-- C1: on a dirty working copy, with the upstream version resolved to
`(M, m)` and the committed build number `B`, a successful run rewrites the
metadata with the version string of `(M, m, 0, B + 1)` — the build is exactly
`B + 1`, never `B` and never `B + 2` — and the same version string is used
whatever uncommitted content the working-copy metadata file holds, because
`B` is read from the committed file at revision `.`. -/
theorem build_increments_committed_by_one (repo : Repo) (fuel M m B : Nat)
    (hd : haschanges repo.hgIdStdout = true)
    (hver : getjavaver repo fuel = some (Except.ok [M, m]))
    (hb : getcsharpprevbuild repo = Except.ok B)
    (hn : (subn repo.asmWorking (fmtVer [M, m, 0, B + 1])).2 ≠ 0) :
    (∃ r, runMain repo fuel = some r ∧ r.err = none ∧
        r.content = (subn repo.asmWorking (fmtVer [M, m, 0, B + 1])).1) ∧
    (∀ w, (subn w (fmtVer [M, m, 0, B + 1])).2 ≠ 0 →
        ∃ r, runMain (setWorking repo w) fuel = some r ∧ r.err = none ∧
          r.content = (subn w (fmtVer [M, m, 0, B + 1])).1) := by
  have key : ∀ w : String, (subn w (fmtVer [M, m, 0, B + 1])).2 ≠ 0 →
      ∃ r, runMain (setWorking repo w) fuel = some r ∧ r.err = none ∧
        r.content = (subn w (fmtVer [M, m, 0, B + 1])).1 := by
    intro w hw
    have hd2 : haschanges (setWorking repo w).hgIdStdout = true := hd
    have hver2 : getjavaver (setWorking repo w) fuel = some (Except.ok [M, m]) := by
      rw [getjavaver_setWorking]
      exact hver
    have hb2 : getcsharpprevbuild (setWorking repo w) = Except.ok B := hb
    have hrun := runMain_eq_update (setWorking repo w) fuel M m B hd2 hver2 hb2
    have hws : (setWorking repo w).asmWorking = w := rfl
    rw [hws] at hrun
    rcases updatecsharpver_cases w [M, m, 0, B + 1] hw with ⟨hu, he⟩ | ⟨hu, he⟩
    · simp only [hu] at hrun
      exact ⟨⟨w, false, none, none⟩, hrun, rfl, he.symm⟩
    · simp only [hu] at hrun
      exact ⟨⟨(subn w (fmtVer [M, m, 0, B + 1])).1, true,
        some (fmtVer [M, m, 0, B + 1]), none⟩, hrun, rfl, rfl⟩
  have hself : setWorking repo repo.asmWorking = repo := rfl
  refine ⟨?_, key⟩
  have h1 := key repo.asmWorking hn
  rwa [hself] at h1

/-- C1 witness: the end-to-end scenario at `(4, 7)` with committed build 118. -/
theorem build_increments_committed_by_one_witness :
    ∃ r, runMain e2eRepo 1 = some r ∧ r.err = none ∧
      r.content = (subn e2eRepo.asmWorking (fmtVer [4, 7, 0, 119])).1 :=
  (build_increments_committed_by_one e2eRepo 1 4 7 118 rfl rfl rfl (by decide)).1

/-- C2: whenever the dirtiness query reports a clean copy, the run is a
silent no-op: no write, no report, no error, the file bytes unchanged. -/
theorem clean_copy_is_noop (repo : Repo) (fuel : Nat)
    (h : haschanges repo.hgIdStdout = false) :
    runMain repo fuel = some ⟨repo.asmWorking, false, none, none⟩ := by
  simp [runMain, h]

/-- C2 witness: a clean checkout at build 118. -/
theorem clean_copy_is_noop_witness :
    runMain cleanRepo 3 = some ⟨cleanRepo.asmWorking, false, none, none⟩ :=
  clean_copy_is_noop cleanRepo 3 rfl

/-- C3: upstream resolution starts at revision `.` and walks first parents
while the version carries the snapshot marker, returning the pair of the
first non-snapshot ancestor; ancestors beyond the stopping point are never
examined — any repository agreeing on the first `k + 1` ancestors resolves
identically, whatever its deeper history answers. -/
theorem snapshot_walk_stops_at_first_release (repo repoB : Repo)
    (k fuel : Nat) (v : List Nat)
    (hagree : ∀ i, i ≤ k → repoB.pomAt i = repo.pomAt i)
    (hsnap : ∀ i, i < k → ∃ vi, readjavaver (repo.pomAt i) = Except.ok (vi, true))
    (hk : readjavaver (repo.pomAt k) = Except.ok (v, false))
    (hfuel : k < fuel) :
    getjavaver repo fuel = some (Except.ok v) ∧
    getjavaver repoB fuel = some (Except.ok v) := by
  constructor
  · apply getjavaverFuel_walk repo v k fuel 0
    · intro i hi
      simpa using hsnap i hi
    · simpa using hk
    · exact hfuel
  · apply getjavaverFuel_walk repoB v k fuel 0
    · intro i hi
      obtain ⟨vi, hvi⟩ := hsnap i hi
      refine ⟨vi, ?_⟩
      rw [Nat.zero_add, hagree i (by omega)]
      exact hvi
    · rw [Nat.zero_add, hagree k (le_refl k)]
      exact hk
    · exact hfuel

/-- C3 witness: `.` and its parent report 2.3-SNAPSHOT, the grandparent
reports 2.2; resolution yields (2, 2) both in a history whose deeper
ancestors report an unrelated release and in one where reading them would
fail outright. -/
theorem snapshot_walk_stops_at_first_release_witness :
    getjavaver snapRepoA 5 = some (Except.ok [2, 2]) ∧
    getjavaver snapRepoB 5 = some (Except.ok [2, 2]) := by
  have h := snapshot_walk_stops_at_first_release snapRepoA snapRepoB 2 5 [2, 2]
    (by intro i hi
        interval_cases i <;> rfl)
    (by intro i hi
        interval_cases i
        · exact ⟨[2, 3], rfl⟩
        · exact ⟨[2, 3], rfl⟩)
    rfl
    (by omega)
  exact h

/-- C4 counterexample: the traversal has no depth cap at all — on a history
where every ancestor reports a snapshot version, no iteration budget makes
`getjavaver` return anything, so no budget produces the claimed
"upstream release not found" failure (or any other result). -/
theorem no_depth_cap_counterexample :
    ¬ ∃ (fuel : Nat) (r : Except String (List Nat)),
        getjavaver allSnapRepo fuel = some r := by
  rintro ⟨fuel, r, h⟩
  have hall : ∀ n, ∃ v, readjavaver (allSnapRepo.pomAt n) = Except.ok (v, true) :=
    fun _ => ⟨[2, 3], rfl⟩
  have h2 : getjavaver allSnapRepo fuel = none :=
    getjavaverFuel_allsnap allSnapRepo hall fuel 0
  rw [h2] at h
  cases h

/-- C4 amended: the ancestry traversal is unbounded — the source loop has no
depth cap and raises no "upstream release not found" error; when every
ancestor reports a snapshot version the loop never produces a result, no
matter how many iterations it is allowed. -/
theorem snapshot_walk_unbounded (repo : Repo) (fuel : Nat)
    (h : ∀ n, ∃ v, readjavaver (repo.pomAt n) = Except.ok (v, true)) :
    getjavaver repo fuel = none :=
  getjavaverFuel_allsnap repo h fuel 0

/-- C4 amended witness: nine iterations on the all-snapshot history are still
running. -/
theorem snapshot_walk_unbounded_witness : getjavaver allSnapRepo 9 = none :=
  snapshot_walk_unbounded allSnapRepo 9 (fun _ => ⟨[2, 3], rfl⟩)

theorem getjavaverFuel_setHgRet (repo : Repo) (n : Nat) :
    ∀ fuel depth, getjavaverFuel (setHgRet repo n) fuel depth =
      getjavaverFuel repo fuel depth := by
  intro fuel
  induction fuel with
  | zero => intro depth; rfl
  | succ f ih =>
    intro depth
    have hp : (setHgRet repo n).pomAt = repo.pomAt := rfl
    simp only [getjavaverFuel, hp]
    cases readjavaver (repo.pomAt depth) with
    | error e => rfl
    | ok p =>
      obtain ⟨v, snap⟩ := p
      cases snap
      · rfl
      · simp only [if_true]
        exact ih (depth + 1)

/-- C5 counterexample: the `hg id -n` process exits non-zero (status 255,
empty stdout) — a failed version-control query — yet the run neither aborts
nor errors: it silently succeeds as a no-op instead of surfacing a fatal
error. -/
theorem dirty_query_failure_ignored :
    failIdRepo.hgIdRet ≠ 0 ∧
    runMain failIdRepo 5 = some ⟨failIdRepo.asmWorking, false, none, none⟩ := by
  constructor
  · decide
  · rfl

/-- C5 amended: the `hg cat` queries (upstream descriptor, committed
metadata) do surface a non-zero exit as the fatal `hg cat failed` error with
no write; but the working-copy dirtiness query's exit status is ignored
entirely — the run's outcome is independent of it, and a failed `hg id` with
empty output is treated as a clean copy (silent no-op). -/
theorem hgcat_failure_fatal_id_status_ignored (repo : Repo) (fuel : Nat)
    (hd : haschanges repo.hgIdStdout = true) (hf : 1 ≤ fuel) :
    (repo.pomAt 0 = none →
      runMain repo fuel =
        some ⟨repo.asmWorking, false, none, some "hg cat failed"⟩) ∧
    (∀ v, getjavaver repo fuel = some (Except.ok v) → repo.asmCommitted = none →
      runMain repo fuel =
        some ⟨repo.asmWorking, false, none, some "hg cat failed"⟩) ∧
    (∀ n, runMain (setHgRet repo n) fuel = runMain repo fuel) := by
  refine ⟨?_, ?_, ?_⟩
  · intro hpom
    cases fuel with
    | zero => omega
    | succ f =>
      have hj : getjavaver repo (f + 1) = some (Except.error "hg cat failed") := by
        show getjavaverFuel repo (f + 1) 0 = some (Except.error "hg cat failed")
        simp only [getjavaverFuel, hpom]
        rfl
      simp only [runMain, hd, if_true, hj]
  · intro v hver hcommit
    have hb : getcsharpprevbuild repo = Except.error "hg cat failed" := by
      simp only [getcsharpprevbuild, hcommit]
    simp only [runMain, hd, if_true, hver, hb]
  · intro n
    have h1 : (setHgRet repo n).hgIdStdout = repo.hgIdStdout := rfl
    have h2 : getjavaver (setHgRet repo n) fuel = getjavaver repo fuel :=
      getjavaverFuel_setHgRet repo n fuel 0
    have h3 : getcsharpprevbuild (setHgRet repo n) = getcsharpprevbuild repo := rfl
    have h4 : (setHgRet repo n).asmWorking = repo.asmWorking := rfl
    simp only [runMain, h1, h2, h3, h4]

/-- C5 amended witness: a dirty copy where both `hg cat` queries fail aborts
with the fatal error and an untouched file. -/
theorem hgcat_failure_fatal_id_status_ignored_witness :
    runMain hgFailRepo 5 =
      some ⟨hgFailRepo.asmWorking, false, none, some "hg cat failed"⟩ :=
  (hgcat_failure_fatal_id_status_ignored hgFailRepo 5 rfl (by omega)).1 rfl

/-- C6: a descriptor with no parseable version element or committed metadata
with no parseable version pattern abort the run with the corresponding
format error before the write, and every error outcome whatsoever leaves
the metadata file's bytes exactly as they were, with no write. -/
theorem format_error_aborts_unwritten (repo : Repo) (fuel : Nat) :
    (∀ s : String, haschanges repo.hgIdStdout = true → 1 ≤ fuel →
      repo.pomAt 0 = some s → findJavaVer s.data = none →
      runMain repo fuel = some ⟨repo.asmWorking, false, none,
        some "cannot extract version number from pom file"⟩) ∧
    (∀ (v : List Nat) (s : String), haschanges repo.hgIdStdout = true →
      getjavaver repo fuel = some (Except.ok v) → repo.asmCommitted = some s →
      findBuild s.data = none →
      runMain repo fuel = some ⟨repo.asmWorking, false, none,
        some "cannot extract version from AssemblyInfo.cs"⟩) ∧
    (∀ r, runMain repo fuel = some r → r.err ≠ none →
      r.content = repo.asmWorking ∧ r.wrote = false) := by
  refine ⟨?_, ?_, ?_⟩
  · intro s hd hfu hpom hfind
    cases fuel with
    | zero => omega
    | succ f =>
      have hrj : readjavaver (repo.pomAt 0) =
          Except.error "cannot extract version number from pom file" := by
        rw [hpom]
        simp only [readjavaver, hfind]
      have hj : getjavaver repo (f + 1) =
          some (Except.error "cannot extract version number from pom file") := by
        show getjavaverFuel repo (f + 1) 0 =
          some (Except.error "cannot extract version number from pom file")
        simp only [getjavaverFuel, hrj]
      simp only [runMain, hd, if_true, hj]
  · intro v s hd hver hcommit hfind
    have hb : getcsharpprevbuild repo =
        Except.error "cannot extract version from AssemblyInfo.cs" := by
      simp only [getcsharpprevbuild, hcommit, hfind]
    simp only [runMain, hd, if_true, hver, hb]
  · intro r hr herr
    cases hd : haschanges repo.hgIdStdout with
    | false =>
      simp only [runMain, hd, Bool.false_eq_true, if_false] at hr
      obtain rfl : (⟨repo.asmWorking, false, none, none⟩ : RunResult) = r :=
        Option.some.inj hr
      exact absurd rfl herr
    | true =>
      simp only [runMain, hd, if_true] at hr
      cases hj : getjavaver repo fuel with
      | none =>
        simp only [hj] at hr
        cases hr
      | some x =>
        simp only [hj] at hr
        cases x with
        | error e =>
          obtain rfl : (⟨repo.asmWorking, false, none, some e⟩ : RunResult) = r :=
            Option.some.inj hr
          exact ⟨rfl, rfl⟩
        | ok ver =>
          cases hb : getcsharpprevbuild repo with
          | error e =>
            simp only [hb] at hr
            obtain rfl : (⟨repo.asmWorking, false, none, some e⟩ : RunResult) = r :=
              Option.some.inj hr
            exact ⟨rfl, rfl⟩
          | ok b =>
            simp only [hb] at hr
            cases hu : updatecsharpver repo.asmWorking (ver.take 2 ++ [0, b + 1]) with
            | error e =>
              simp only [hu] at hr
              obtain rfl : (⟨repo.asmWorking, false, none, some e⟩ : RunResult) = r :=
                Option.some.inj hr
              exact ⟨rfl, rfl⟩
            | ok t =>
              obtain ⟨c, w, rep⟩ := t
              simp only [hu] at hr
              obtain rfl : (⟨c, w, rep, none⟩ : RunResult) = r :=
                Option.some.inj hr
              exact absurd rfl herr

/-- C6 witness: a descriptor with no version element aborts with the pom
format error and the file untouched. -/
theorem format_error_aborts_unwritten_witness :
    runMain badPomRepo 3 = some ⟨badPomRepo.asmWorking, false, none,
      some "cannot extract version number from pom file"⟩ :=
  (format_error_aborts_unwritten badPomRepo 3).1 "no version element"
    rfl (by omega) rfl rfl

/-- C7: for any metadata content and version, when the rewritten content is
byte-identical to the existing content the write is skipped and the file
bytes after the run equal the bytes before it. -/
theorem identical_rewrite_skips_write (data : String) (ver : List Nat)
    (hn : (subn data (fmtVer ver)).2 ≠ 0)
    (heq : (subn data (fmtVer ver)).1 = data) :
    updatecsharpver data ver = Except.ok (data, false, none) := by
  simp only [updatecsharpver]
  rw [if_neg hn, if_pos heq]

/-- C7 witness: a file already at 4.7.0.119 rewritten with 4.7.0.119. -/
theorem identical_rewrite_skips_write_witness :
    updatecsharpver asmNewStr [4, 7, 0, 119] = Except.ok (asmNewStr, false, none) :=
  identical_rewrite_skips_write asmNewStr [4, 7, 0, 119] (by decide) (by decide)

/-- C8: the rewrite of a dirty-copy run replaces only the literals inside the
quotes of the two version-bearing declarations (`AssemblyVersion` and
`AssemblyFileVersion`) with the formatted `M.m.0.(B+1)` string, keeping every
surrounding byte; with descriptor `(4, 7)` and committed build 118 both
declarations become 4.7.0.119. -/
theorem rewrite_touches_only_version_literals (repo : Repo) (fuel M m B : Nat)
    (pre mid post v1 v2 : List Char)
    (hd : haschanges repo.hgIdStdout = true)
    (hver : getjavaver repo fuel = some (Except.ok [M, m]))
    (hb : getcsharpprevbuild repo = Except.ok B)
    (hdata : repo.asmWorking.data = shapeWith pre mid post v1 v2)
    (hpre : ∀ c ∈ pre, c ≠ 'A') (hmid : ∀ c ∈ mid, c ≠ 'A')
    (hpost : ∀ c ∈ post, c ≠ 'A')
    (hv1 : v1 ≠ []) (hq1 : ∀ c ∈ v1, c ≠ '"')
    (hv2 : v2 ≠ []) (hq2 : ∀ c ∈ v2, c ≠ '"') :
    ∃ r, runMain repo fuel = some r ∧ r.err = none ∧
      r.content.data = shapeWith pre mid post
        (fmtVer [M, m, 0, B + 1]).data (fmtVer [M, m, 0, B + 1]).data := by
  have h := runMain_shape repo fuel M m B pre mid post v1 v2
    hd hver hb hdata hpre hmid hpost hv1 hq1 hv2 hq2
  by_cases hcase : String.mk (shapeWith pre mid post (fmtVer [M, m, 0, B + 1]).data
      (fmtVer [M, m, 0, B + 1]).data) = repo.asmWorking
  · rw [if_pos hcase] at h
    exact ⟨_, h, rfl, (congrArg String.data hcase).symm⟩
  · rw [if_neg hcase] at h
    exact ⟨_, h, rfl, rfl⟩

/-- C8 witness: the end-to-end scenario, with the file decomposed around the
two declarations. -/
theorem rewrite_touches_only_version_literals_witness :
    ∃ r, runMain e2eRepo 1 = some r ∧ r.err = none ∧
      r.content.data = shapeWith ("[assembly: " : String).data
        (")]\n[assembly: " : String).data (")]" : String).data
        (fmtVer [4, 7, 0, 119]).data (fmtVer [4, 7, 0, 119]).data :=
  rewrite_touches_only_version_literals e2eRepo 1 4 7 118
    ("[assembly: " : String).data (")]\n[assembly: " : String).data
    (")]" : String).data ("4.6.0.118" : String).data ("4.6.0.118" : String).data
    rfl rfl rfl (by decide) (by decide) (by decide) (by decide)
    (by decide) (by decide) (by decide) (by decide)

/-- C9: the version string written always has exactly four dot-separated
components: a shorter tuple is right-padded with zeros, a longer one is
truncated to its first four, before formatting. -/
theorem version_padded_truncated_four (ver : List Nat) :
    (padVer ver).length = 4 ∧
    (4 ≤ ver.length → padVer ver = ver.take 4) ∧
    (ver.length < 4 → padVer ver = ver ++ List.replicate (4 - ver.length) 0) ∧
    fmtVer ver = String.mk (joinDots ((padVer ver).map natToChars)) := by
  refine ⟨padVer_length ver, ?_, ?_, rfl⟩
  · intro h
    simp only [padVer]
    rw [List.take_append_eq_append_take]
    rw [show 4 - ver.length = 0 by omega]
    simp
  · intro h
    simp only [padVer]
    rw [List.take_append_eq_append_take]
    rw [show ([0, 0, 0, 0] : List Nat) = List.replicate 4 0 from rfl,
      List.take_replicate]
    rw [show min (4 - ver.length) 4 = 4 - ver.length by omega]
    rw [List.take_of_length_le (by omega)]

/-- C9 witness: a one-component tuple is padded, a five-component one is
truncated. -/
theorem version_padded_truncated_four_witness :
    padVer [9] = [9, 0, 0, 0] ∧ padVer [1, 2, 3, 4, 5] = [1, 2, 3, 4] := by
  constructor
  · have h := (version_padded_truncated_four [9]).2.2.1 (by decide)
    rw [h]
    decide
  · have h := (version_padded_truncated_four [1, 2, 3, 4, 5]).2.1 (by decide)
    rw [h]
    decide

/-- C10: with the committed history unchanged, running the synchronizer a
second time on the file produced by the first run resolves the same committed
build number, computes the same version string, finds the rewritten content
already equal to the on-disk content, and skips the write: the bytes after
two runs equal the bytes after one. -/
theorem second_run_skips_write (repo : Repo) (fuel M m B : Nat)
    (pre mid post v1 v2 : List Char)
    (hd : haschanges repo.hgIdStdout = true)
    (hver : getjavaver repo fuel = some (Except.ok [M, m]))
    (hb : getcsharpprevbuild repo = Except.ok B)
    (hdata : repo.asmWorking.data = shapeWith pre mid post v1 v2)
    (hpre : ∀ c ∈ pre, c ≠ 'A') (hmid : ∀ c ∈ mid, c ≠ 'A')
    (hpost : ∀ c ∈ post, c ≠ 'A')
    (hv1 : v1 ≠ []) (hq1 : ∀ c ∈ v1, c ≠ '"')
    (hv2 : v2 ≠ []) (hq2 : ∀ c ∈ v2, c ≠ '"') :
    ∃ r1 r2, runMain repo fuel = some r1 ∧ r1.err = none ∧
      runMain (setWorking repo r1.content) fuel = some r2 ∧
      r2.err = none ∧ r2.wrote = false ∧ r2.content = r1.content := by
  have h1 := runMain_shape repo fuel M m B pre mid post v1 v2
    hd hver hb hdata hpre hmid hpost hv1 hq1 hv2 hq2
  by_cases hcase : String.mk (shapeWith pre mid post (fmtVer [M, m, 0, B + 1]).data
      (fmtVer [M, m, 0, B + 1]).data) = repo.asmWorking
  · rw [if_pos hcase] at h1
    refine ⟨⟨repo.asmWorking, false, none, none⟩, ⟨repo.asmWorking, false, none, none⟩,
      h1, rfl, ?_, rfl, rfl, rfl⟩
    show runMain (setWorking repo repo.asmWorking) fuel = _
    have hself : setWorking repo repo.asmWorking = repo := rfl
    rw [hself]
    exact h1
  · rw [if_neg hcase] at h1
    have hd2 : haschanges (setWorking repo (String.mk (shapeWith pre mid post
        (fmtVer [M, m, 0, B + 1]).data (fmtVer [M, m, 0, B + 1]).data))).hgIdStdout =
        true := hd
    have hver2 : getjavaver (setWorking repo (String.mk (shapeWith pre mid post
        (fmtVer [M, m, 0, B + 1]).data (fmtVer [M, m, 0, B + 1]).data))) fuel =
        some (Except.ok [M, m]) := by
      rw [getjavaver_setWorking]
      exact hver
    have hb2 : getcsharpprevbuild (setWorking repo (String.mk (shapeWith pre mid post
        (fmtVer [M, m, 0, B + 1]).data (fmtVer [M, m, 0, B + 1]).data))) =
        Except.ok B := hb
    have h2 := runMain_shape (setWorking repo (String.mk (shapeWith pre mid post
        (fmtVer [M, m, 0, B + 1]).data (fmtVer [M, m, 0, B + 1]).data))) fuel M m B
      pre mid post (fmtVer [M, m, 0, B + 1]).data (fmtVer [M, m, 0, B + 1]).data
      hd2 hver2 hb2 rfl hpre hmid hpost
      (fmtVer_ne_nil [M, m, 0, B + 1]) (fmtVer_ne_quote [M, m, 0, B + 1])
      (fmtVer_ne_nil [M, m, 0, B + 1]) (fmtVer_ne_quote [M, m, 0, B + 1])
    have hcond : String.mk (shapeWith pre mid post (fmtVer [M, m, 0, B + 1]).data
        (fmtVer [M, m, 0, B + 1]).data) =
        (setWorking repo (String.mk (shapeWith pre mid post
          (fmtVer [M, m, 0, B + 1]).data (fmtVer [M, m, 0, B + 1]).data))).asmWorking :=
      rfl
    rw [if_pos hcond] at h2
    exact ⟨⟨String.mk (shapeWith pre mid post (fmtVer [M, m, 0, B + 1]).data
        (fmtVer [M, m, 0, B + 1]).data), true, some (fmtVer [M, m, 0, B + 1]), none⟩,
      ⟨String.mk (shapeWith pre mid post (fmtVer [M, m, 0, B + 1]).data
        (fmtVer [M, m, 0, B + 1]).data), false, none, none⟩,
      h1, rfl, h2, rfl, rfl, rfl⟩

/-- C10 witness: two consecutive runs on the end-to-end scenario. -/
theorem second_run_skips_write_witness :
    ∃ r1 r2, runMain e2eRepo 1 = some r1 ∧ r1.err = none ∧
      runMain (setWorking e2eRepo r1.content) 1 = some r2 ∧
      r2.err = none ∧ r2.wrote = false ∧ r2.content = r1.content :=
  second_run_skips_write e2eRepo 1 4 7 118
    ("[assembly: " : String).data (")]\n[assembly: " : String).data
    (")]" : String).data ("4.6.0.118" : String).data ("4.6.0.118" : String).data
    rfl rfl rfl (by decide) (by decide) (by decide) (by decide)
    (by decide) (by decide) (by decide) (by decide)
